import Mathlib

/-!
Verification development for the Biscotti Cafe order system
(`cafe_order_system.py`).

The Python source is shallowly embedded as follows.

* The fixed `menu` dict becomes an association list `List (String × ℤ)`
  (prices are Python ints).
* `Order` becomes a structure with the same six fields set by
  `Order.__init__` / `load_orders`.  Python dicts are insertion-ordered
  maps; they are modelled as association lists with in-place update,
  which reproduces both lookup and iteration order.
* The tax arithmetic is binary64: `CGST_RATE`/`SGST_RATE` are the exact
  rational value of the double nearest the literal `0.09`, and
  `calculate_taxes` is IEEE-754 multiplication — the int operand
  converted to binary64, then the exact product of the two doubles
  rounded to the nearest double, ties to even (`b64Of`).  Overflow and
  subnormals lie far outside the magnitudes this program handles and
  are not modelled.  The additions in `calculate_total` are kept exact
  in ℚ; at every value the claims inspect they coincide with the float
  additions.
* `datetime.now()` is an external input; registry operations that stamp
  a time take the stamp as an explicit `String` argument.
* In the source, `cafe.tables[t]` and `cafe.orders[n]` alias the same
  `Order` object.  Every object stored in `tables` is simultaneously
  stored in `orders` under its own order number (both `open_order` and
  `load_orders` install it in both maps), so the aliasing is modelled by
  indirection: `tables` maps a table number to the active order *number*
  and mutation goes through the `orders` map.
* `print` calls are presentation only; functions whose observable result
  is printed (`view_order_summary`) return the printed data as a value.
-/

/-- The fixed menu with prices in Rs., in source order. -/
def menu : List (String × ℤ) :=
  [("coffee", 250), ("tea", 50), ("sandwich", 200),
   ("burger", 350), ("fries", 100), ("cake", 500)]

/-- Fuel-driven floor of log2 (the fuel lets concrete instances reduce
in the kernel; `natFloorLog2 n` uses fuel `n`, far more than the
`log2 n` steps needed). -/
def natFloorLog2Aux : ℕ → ℕ → ℕ
  | 0, _ => 0
  | fuel + 1, n => if 2 ≤ n then natFloorLog2Aux fuel (n / 2) + 1 else 0

/-- `⌊log2 n⌋` for `n ≥ 1` (0 at 0). -/
def natFloorLog2 (n : ℕ) : ℕ := natFloorLog2Aux n n

/-- `⌊log2 (n/d)⌋` for `n, d ≥ 1`: from the bit lengths of `n` and `d`
the value is `a - b` or `a - b - 1`; one comparison decides. -/
def ratFloorLog2 (n d : ℕ) : ℤ :=
  let a := natFloorLog2 n
  let b := natFloorLog2 d
  if d * 2 ^ a ≤ n * 2 ^ b then (a : ℤ) - b else (a : ℤ) - b - 1

/-- Round `n / d` (`d ≥ 1`) to the nearest integer, ties to even —
IEEE-754 round-to-nearest-even at integer precision. -/
def roundHalfEven (n : ℤ) (d : ℕ) : ℤ :=
  let q := Int.fdiv n (d : ℤ)
  let r := n - q * (d : ℤ)
  if 2 * r < (d : ℤ) then q
  else if (d : ℤ) < 2 * r then q + 1
  else if q % 2 = 0 then q else q + 1

/-- The binary64 (IEEE-754 double) value nearest the rational `n / d`:
scale into the 53-bit significand range given by `⌊log2⌋` and round to
nearest, ties to even.  Overflow and subnormals are far outside the
magnitudes this program handles and are not modelled. -/
def b64Of (n : ℤ) (d : ℕ) : ℚ :=
  if n = 0 then 0
  else
    let e := ratFloorLog2 n.natAbs d
    if 52 ≤ e then
      let k := (e - 52).toNat
      mkRat (roundHalfEven n (d * 2 ^ k) * 2 ^ k) 1
    else
      let k := (52 - e).toNat
      mkRat (roundHalfEven (n * 2 ^ k) d) (2 ^ k)

/-- CGST tax rate: the binary64 value of the source literal `0.09`,
i.e. `6485183463413514 / 2 ^ 56` (binary64 cannot represent 9/100
exactly). -/
def CGST_RATE : ℚ := b64Of 9 100

/-- SGST tax rate: the binary64 value of the source literal `0.09`. -/
def SGST_RATE : ℚ := b64Of 9 100

/-- Flat packaging cost for takeout. -/
def PACKAGING_COST : ℤ := 20

/-- Lookup in a string-keyed association list (Python `d[k]` / `k in d`). -/
def lookupItem : List (String × ℤ) → String → Option ℤ
  | [], _ => none
  | p :: rest, k => if p.1 = k then some p.2 else lookupItem rest k

/-- `menu[name]`, totalised with a default never used on valid keys. -/
def unitPrice (name : String) : ℤ :=
  (lookupItem menu name).getD 0

/-- One order record: the fields of the Python `Order` object. -/
structure Order where
  table_number : ℤ
  order_number : ℕ
  items : List (String × ℤ)
  is_active : Bool
  include_packaging : Bool
  order_time : String
deriving DecidableEq, Repr

/-- Python `str.lower()`, used by `add_items` on requested names.  The
program only handles ASCII item names, on which lowering each character
is exactly Python's behaviour.  (Defined by structural recursion over
the character list, unlike `String.toLower`, so that concrete instances
evaluate.) -/
def pyLower (s : String) : String :=
  ⟨s.data.map Char.toLower⟩

/-- Python dict update `d[name] += q` / `d[name] = q`: the first entry
with the key is updated in place, a missing key is appended at the end. -/
def bumpItem : List (String × ℤ) → String → ℤ → List (String × ℤ)
  | [], name, q => [(name, q)]
  | p :: rest, name, q =>
      if p.1 = name then (p.1, p.2 + q) :: rest
      else p :: bumpItem rest name q

/-- `Order.add_items`: each requested entry is lower-cased; entries whose
name is on the menu are merged additively, the rest are skipped. -/
def addItems : List (String × ℤ) → List (String × ℤ) → List (String × ℤ)
  | items, [] => items
  | items, p :: rest =>
      addItems
        (if (lookupItem menu (pyLower p.1)).isSome then
          bumpItem items (pyLower p.1) p.2
        else items)
        rest

/-- `Order.calculate_subtotal`: sum of `menu[item] * quantity`. -/
def calculateSubtotal (items : List (String × ℤ)) : ℤ :=
  (items.map (fun p => unitPrice p.1 * p.2)).sum

/-- `Order.calculate_taxes`: each tax is the Python float product
`subtotal * 0.09` — the int subtotal converted to binary64, and the
exact product with the binary64 rate rounded to the nearest double. -/
def calculateTaxes (subtotal : ℤ) : ℚ × ℚ :=
  let s : ℚ := b64Of subtotal 1
  (b64Of (s.num * CGST_RATE.num) (s.den * CGST_RATE.den),
   b64Of (s.num * SGST_RATE.num) (s.den * SGST_RATE.den))

/-- `Order.calculate_total`: returns `(total, cgst, sgst)`. -/
def calculateTotal (o : Order) : ℚ × ℚ × ℚ :=
  let subtotal := calculateSubtotal o.items
  let cgst := (calculateTaxes subtotal).1
  let sgst := (calculateTaxes subtotal).2
  let total := (subtotal : ℚ) + cgst + sgst
  (if o.include_packaging then total + (PACKAGING_COST : ℚ) else total,
   cgst, sgst)

/-- A sample order holding one coffee and one tea, as in the spec's
worked example. -/
def exampleOrder : Order :=
  { table_number := 1, order_number := 1,
    items := [("coffee", 1), ("tea", 1)],
    is_active := true, include_packaging := false,
    order_time := "2024-01-01 12:00:00" }

/-- The café registry state.  The source stores the active `Order`
object itself in `tables`, shared with `orders`; the shared reference is
modelled as the active order's number, and mutation goes through
`orders`. -/
structure Cafe where
  tables : ℤ → Option ℕ
  orders : List (ℕ × Order)
  next_order_number : ℕ

/-- Lookup in the order-number dict (Python `n in d` / `d[n]`). -/
def lookupOrder : List (ℕ × Order) → ℕ → Option Order
  | [], _ => none
  | p :: rest, n => if p.1 = n then some p.2 else lookupOrder rest n

/-- In-place replacement of the record stored under key `n`: the model
of mutating the shared `Order` object, which both dicts observe. -/
def setOrder : List (ℕ × Order) → ℕ → Order → List (ℕ × Order)
  | [], _, _ => []
  | p :: rest, n, o =>
      if p.1 = n then (p.1, o) :: rest else p :: setOrder rest n o

/-- Pointwise update of the `tables` dict. -/
def updateTable (tb : ℤ → Option ℕ) (t : ℤ) (v : Option ℕ) :
    ℤ → Option ℕ :=
  fun u => if u = t then v else tb u

/-- `Cafe.validate_table_number`: a table number is valid iff it is
between 1 and 6. -/
def validTable (t : ℤ) : Bool :=
  !(t < 1 || t > 6)

/-- `Cafe.__init__` before `load_orders` runs: all tables free, no
orders, counter at 1.  (Starting with no data file, this is also the
state after `load_orders`.) -/
def initialCafe : Cafe :=
  { tables := fun _ => none, orders := [], next_order_number := 1 }

/-- `Cafe.open_order`: on a valid, free table create a new active order
stamped `now`, install it in both maps, and advance the counter; on an
invalid or occupied table report and leave the registry unchanged.
(`save_orders` rewrites the file; in-memory state is unaffected.) -/
def openOrder (c : Cafe) (t : ℤ) (now : String) : Cafe :=
  if validTable t then
    match c.tables t with
    | none =>
        { tables := updateTable c.tables t (some c.next_order_number),
          orders := c.orders ++
            [(c.next_order_number,
              { table_number := t, order_number := c.next_order_number,
                items := [], is_active := true, include_packaging := false,
                order_time := now })],
          next_order_number := c.next_order_number + 1 }
    | some _ => c
  else c

/-- `Cafe.add_items_to_order`: if the table is valid and has an active
order, delegate to `Order.add_items` on that (shared) order; otherwise
report and change nothing.  The inner `none` fallback is unreachable:
a table reference always denotes an existing order. -/
def addItemsToOrder (c : Cafe) (t : ℤ) (req : List (String × ℤ)) : Cafe :=
  if validTable t then
    match c.tables t with
    | some n =>
        match lookupOrder c.orders n with
        | some o =>
            if o.is_active then
              { c with orders :=
                  (setOrder c.orders n
                    { o with items := addItems o.items req }) }
            else c
        | none => c
    | none => c
  else c

/-- `Cafe.close_order` with the operator's validated packaging answer:
set the packaging flag, deactivate the order (`Order.close_order` sets
`is_active = False` and prints the bill), and free the table. -/
def closeOrder (c : Cafe) (t : ℤ) (packaging : Bool) : Cafe :=
  if validTable t then
    match c.tables t with
    | some n =>
        match lookupOrder c.orders n with
        | some o =>
            if o.is_active then
              { c with
                orders :=
                  (setOrder c.orders n
                    { o with include_packaging := packaging,
                             is_active := false }),
                tables := updateTable c.tables t none }
            else c
        | none => c
    | none => c
  else c

/-- `Cafe.save_orders`: the file holds `vars(order)` keyed by order
number — exactly the entries of `orders` (int keys round-trip through
their JSON string form unchanged). -/
def saveOrders (c : Cafe) : List (ℕ × Order) := c.orders

/-- The effect of the `load_orders` loop on `tables`: each active record
occupies its table, later records overwriting earlier ones. -/
def loadTablesAux : (ℤ → Option ℕ) → List (ℕ × Order) → ℤ → Option ℕ
  | tb, [] => tb
  | tb, p :: rest =>
      loadTablesAux
        (if p.2.is_active then updateTable tb p.2.table_number (some p.1)
         else tb)
        rest

/-- The effect of the `load_orders` loop on `orders`: each record is
rebuilt with its dict key as the order number (the source ignores the
stored `order_number` field and uses `int(order_number)` of the key). -/
def ordersFromData (entries : List (ℕ × Order)) : List (ℕ × Order) :=
  entries.map (fun p =>
    (p.1,
      { table_number := p.2.table_number, order_number := p.1,
        items := p.2.items, is_active := p.2.is_active,
        include_packaging := p.2.include_packaging,
        order_time := p.2.order_time }))

/-- `max(self.orders.keys(), default=0)`. -/
def maxKey (entries : List (ℕ × Order)) : ℕ :=
  (entries.map Prod.fst).foldl max 0

/-- `Cafe.__init__` followed by `load_orders` on the data file contents;
a missing file (`none`) leaves the fresh registry as is. -/
def loadOrders (data : Option (List (ℕ × Order))) : Cafe :=
  match data with
  | none => initialCafe
  | some entries =>
      { tables := loadTablesAux (fun _ => none) entries,
        orders := ordersFromData entries,
        next_order_number := maxKey (ordersFromData entries) + 1 }

/-- Persist the registry and reload it into a fresh `Cafe`.  Every
mutating operation rewrites the whole file, so the file always equals
`saveOrders` of the current state; this therefore also models exiting
and restarting the program. -/
def saveLoad (c : Cafe) : Cafe :=
  loadOrders (some (saveOrders c))

/-- One mutating operator command (the view commands read state and are
modelled as pure functions). -/
inductive Op where
  | openOp (t : ℤ) (now : String)
  | addOp (t : ℤ) (req : List (String × ℤ))
  | closeOp (t : ℤ) (packaging : Bool)
  | reloadOp
deriving DecidableEq, Repr

def applyOp (c : Cafe) : Op → Cafe
  | .openOp t now => openOrder c t now
  | .addOp t req => addItemsToOrder c t req
  | .closeOp t packaging => closeOrder c t packaging
  | .reloadOp => saveLoad c

def runFrom (c : Cafe) (ops : List Op) : Cafe :=
  ops.foldl applyOp c

def runOps (ops : List Op) : Cafe :=
  runFrom initialCafe ops

/-- Registry states reachable from a fresh registry with no data file. -/
def Reachable (c : Cafe) : Prop :=
  ∃ ops : List Op, runOps ops = c

/-- Result of `view_order_summary`: one of the two failure reports, or
the printed report data — line items with quantity, unit price and line
total, the subtotal, both taxes, the packaging line when present, and
the net total. -/
inductive SummaryResult where
  | notFound
  | stillActive
  | report (table : ℤ) (time : String)
      (lines : List (String × ℤ × ℤ × ℤ))
      (subtotal : ℤ) (cgst sgst : ℚ) (packagingLine : Option ℤ) (total : ℚ)
deriving DecidableEq, Repr

/-- `Cafe.view_order_summary`: a pure read of the registry (the source
only reads state and prints the report). -/
def viewOrderSummary (c : Cafe) (n : ℕ) : SummaryResult :=
  match lookupOrder c.orders n with
  | none => .notFound
  | some o =>
      if o.is_active then .stillActive
      else
        let subtotal := calculateSubtotal o.items
        let cgst := (calculateTaxes subtotal).1
        let sgst := (calculateTaxes subtotal).2
        let total := (subtotal : ℚ) + cgst + sgst
        .report o.table_number o.order_time
          (o.items.map (fun p =>
            (p.1, p.2, unitPrice p.1, unitPrice p.1 * p.2)))
          subtotal cgst sgst
          (if o.include_packaging then some PACKAGING_COST else none)
          (if o.include_packaging then total + (PACKAGING_COST : ℚ)
           else total)

/-- Key `n` is bound to an active order for table `t`. -/
def activeAt (c : Cafe) (n : ℕ) (t : ℤ) : Prop :=
  ∃ o, lookupOrder c.orders n = some o ∧ o.is_active = true
    ∧ o.table_number = t

/-- The registry invariants maintained by every operation: each record's
`order_number` equals its key, the keys are exactly `1, …, next-1` in
order, the counter is at least 1, and a table holds `n` exactly when `n`
is an active order for it. -/
structure CafeInv (c : Cafe) : Prop where
  key_eq_number : ∀ n o, lookupOrder c.orders n = some o →
    o.order_number = n
  keys_seq : c.orders.map Prod.fst =
    List.range' 1 (c.next_order_number - 1)
  next_pos : 1 ≤ c.next_order_number
  tables_iff : ∀ t n, c.tables t = some n ↔ activeAt c n t

/-- The key, if any, of the last record in the list that is active at
table `t` — the one whose `tables` assignment in the `load_orders` loop
survives. -/
def findLastActiveKey : List (ℕ × Order) → ℤ → Option ℕ
  | [], _ => none
  | p :: rest, t =>
      match findLastActiveKey rest t with
      | some n => some n
      | none =>
          if p.2.is_active = true ∧ p.2.table_number = t then some p.1
          else none

/-- Every stored line-item key is a menu name, in every order. -/
def ItemsOnMenu (c : Cafe) : Prop :=
  ∀ n o, lookupOrder c.orders n = some o →
    ∀ p ∈ o.items, (lookupItem menu (Prod.fst p)).isSome = true

/-- Every stored quantity is at least 1, in every order. -/
def ItemsPositive (c : Cafe) : Prop :=
  ∀ n o, lookupOrder c.orders n = some o → ∀ p ∈ o.items, 1 ≤ p.2

/-- An operation whose requested quantities are all at least 1. -/
def opPositive : Op → Prop
  | .addOp _ req => ∀ p ∈ req, 1 ≤ p.2
  | _ => True

/-- A reachable registry holding a quantity-0 line item: open table 1,
then request zero coffees (the interactive layer parses any int,
including 0 and negatives, and `add_items` stores it unchecked). -/
def zeroQuantityCafe : Cafe :=
  addItemsToOrder (openOrder initialCafe 1 "2024-01-01 10:00:00") 1
    [("coffee", 0)]

/-- C1: `calculate_total` returns `(total, cgst, sgst)` with
`total = subtotal + cgst + sgst`, plus a flat 20 exactly when the
packaging flag is set; on one coffee and one tea the subtotal is 300,
both taxes are 27, and the total is 354 without packaging and 374 with
packaging. -/
theorem calculateTotal_decomposition_and_example :
    (∀ o : Order,
      calculateTotal o =
        ((calculateSubtotal o.items : ℚ)
            + (calculateTaxes (calculateSubtotal o.items)).1
            + (calculateTaxes (calculateSubtotal o.items)).2
            + (if o.include_packaging then (PACKAGING_COST : ℚ) else 0),
         (calculateTaxes (calculateSubtotal o.items)).1,
         (calculateTaxes (calculateSubtotal o.items)).2))
    ∧ calculateSubtotal exampleOrder.items = 300
    ∧ calculateTotal exampleOrder = (354, 27, 27)
    ∧ calculateTotal { exampleOrder with include_packaging := true }
        = (374, 27, 27) := by
  have hsub : calculateSubtotal [("coffee", 1), ("tea", 1)] = 300 := by decide
  have htax : calculateTaxes 300 = (27, 27) := by decide
  refine ⟨fun o => ?_, by decide, ?_, ?_⟩
  · unfold calculateTotal
    cases h : o.include_packaging <;> simp [h]
  · simp [calculateTotal, exampleOrder, hsub, htax, PACKAGING_COST]
    norm_num
  · simp [calculateTotal, exampleOrder, hsub, htax, PACKAGING_COST]
    norm_num

/-- C3 counterexample: the claim that `calculate_taxes` returns exactly
9 % of every subtotal fails on the code: at subtotal 7 the binary64
product `7 * 0.09` is `5674535530486825 / 2 ^ 53` — the double nearest
0.63 — and 63/100 is not representable in binary64, so the result is
not exactly 9 % of 7. -/
theorem calculateTaxes_not_nine_percent_at_seven :
    (calculateTaxes 7).1 = mkRat 5674535530486825 9007199254740992
    ∧ (calculateTaxes 7).1 ≠ (7 : ℚ) * (9 / 100) := by
  have h1 : (calculateTaxes 7).1 =
      mkRat 5674535530486825 9007199254740992 := by decide
  refine ⟨h1, ?_⟩
  rw [h1, Rat.mkRat_eq_div]
  intro hc
  norm_num at hc

/-- C3 amended: `calculate_taxes` always returns two equal components,
each the binary64 product `subtotal * 0.09`; at the cited example the
product is exact: `calculateTaxes 1000` returns cgst = 90 and
sgst = 90.  (The original "each exactly 9 % of the subtotal, for every
subtotal" fails, e.g. at subtotal 7.) -/
theorem calculateTaxes_equal_components_and_example :
    (∀ s : ℤ, (calculateTaxes s).1 = (calculateTaxes s).2)
    ∧ calculateTaxes 1000 = (90, 90) :=
  ⟨fun s => rfl, by decide⟩

theorem calculateSubtotal_nil : calculateSubtotal [] = 0 := rfl

theorem calculateSubtotal_cons (p : String × ℤ) (l : List (String × ℤ)) :
    calculateSubtotal (p :: l) = unitPrice p.1 * p.2 + calculateSubtotal l := by
  simp [calculateSubtotal]

theorem calculateSubtotal_bumpItem (items : List (String × ℤ))
    (name : String) (q : ℤ) :
    calculateSubtotal (bumpItem items name q) =
      calculateSubtotal items + unitPrice name * q := by
  induction items with
  | nil => simp [bumpItem, calculateSubtotal]
  | cons p rest ih =>
      by_cases h : p.1 = name
      · subst h
        have hb : bumpItem (p :: rest) p.1 q = (p.1, p.2 + q) :: rest := by
          simp [bumpItem]
        rw [hb, calculateSubtotal_cons, calculateSubtotal_cons]
        ring
      · have hb : bumpItem (p :: rest) name q = p :: bumpItem rest name q := by
          simp [bumpItem, h]
        rw [hb, calculateSubtotal_cons, calculateSubtotal_cons, ih]
        ring

theorem addItems_nil (items : List (String × ℤ)) : addItems items [] = items :=
  rfl

theorem addItems_cons (items : List (String × ℤ)) (p : String × ℤ)
    (rest : List (String × ℤ)) :
    addItems items (p :: rest) =
      addItems
        (if (lookupItem menu (pyLower p.1)).isSome then
          bumpItem items (pyLower p.1) p.2
        else items) rest :=
  rfl

theorem addItems_append (l₁ l₂ items : List (String × ℤ)) :
    addItems items (l₁ ++ l₂) = addItems (addItems items l₁) l₂ := by
  induction l₁ generalizing items with
  | nil => rfl
  | cons p rest ih => simp only [List.cons_append, addItems_cons, ih]

theorem calculateSubtotal_addItems (req : List (String × ℤ)) :
    ∀ items, calculateSubtotal (addItems items req) =
      calculateSubtotal items +
        (req.map (fun p =>
          if (lookupItem menu (pyLower p.1)).isSome then
            unitPrice (pyLower p.1) * p.2
          else 0)).sum := by
  induction req with
  | nil => simp [addItems]
  | cons p rest ih =>
      intro items
      rw [addItems_cons]
      by_cases h : (lookupItem menu (pyLower p.1)).isSome
      · rw [if_pos h, ih, calculateSubtotal_bumpItem]
        simp only [List.map_cons, List.sum_cons, if_pos h]
        ring
      · rw [if_neg h, ih]
        simp only [List.map_cons, List.sum_cons, if_neg h]
        ring

theorem lookupItem_bumpItem (items : List (String × ℤ)) (name : String)
    (q : ℤ) (k : String) :
    lookupItem (bumpItem items name q) k =
      if name = k then some ((lookupItem items name).getD 0 + q)
      else lookupItem items k := by
  induction items with
  | nil =>
      by_cases h : name = k <;> simp [bumpItem, lookupItem, h]
  | cons p rest ih =>
      by_cases hp : p.1 = name
      · subst hp
        by_cases hk : p.1 = k
        · subst hk
          simp [bumpItem, lookupItem]
        · simp [bumpItem, lookupItem, hk]
      · by_cases hk : p.1 = k
        · subst hk
          have : ¬ name = p.1 := fun h => hp h.symm
          simp [bumpItem, lookupItem, hp, this]
        · simp [bumpItem, lookupItem, hp, hk, ih]

theorem getD_lookupItem_addItems (req : List (String × ℤ)) :
    ∀ items (name : String),
      (lookupItem (addItems items req) name).getD 0 =
        (lookupItem items name).getD 0 +
          (req.map (fun p =>
            if (lookupItem menu (pyLower p.1)).isSome ∧ (pyLower p.1) = name then
              p.2
            else 0)).sum := by
  induction req with
  | nil => simp [addItems]
  | cons p rest ih =>
      intro items name
      rw [addItems_cons]
      by_cases hv : (lookupItem menu (pyLower p.1)).isSome
      · rw [if_pos hv, ih]
        by_cases hn : (pyLower p.1) = name
        · subst hn
          simp [lookupItem_bumpItem, hv]
          ring
        · simp [lookupItem_bumpItem, hv, hn, Ne.symm hn]
      · rw [if_neg hv, ih]
        have : ¬ ((lookupItem menu (pyLower p.1)).isSome ∧ (pyLower p.1) = name) :=
          fun hc => hv hc.1
        simp only [List.map_cons, List.sum_cons, if_neg this]
        ring

theorem calculateSubtotal_foldl_addItems
    (batches : List (List (String × ℤ))) :
    ∀ items, calculateSubtotal (batches.foldl addItems items) =
      calculateSubtotal items +
        (batches.map (fun b => (b.map (fun p =>
          if (lookupItem menu (pyLower p.1)).isSome then
            unitPrice (pyLower p.1) * p.2
          else 0)).sum)).sum := by
  induction batches with
  | nil => simp
  | cons b rest ih =>
      intro items
      simp only [List.foldl_cons, List.map_cons, List.sum_cons]
      rw [ih, calculateSubtotal_addItems]
      ring

theorem getD_lookupItem_foldl_addItems
    (batches : List (List (String × ℤ))) :
    ∀ items (name : String),
      (lookupItem (batches.foldl addItems items) name).getD 0 =
        (lookupItem items name).getD 0 +
          (batches.map (fun b => (b.map (fun p =>
            if (lookupItem menu (pyLower p.1)).isSome ∧ (pyLower p.1) = name then
              p.2
            else 0)).sum)).sum := by
  induction batches with
  | nil => simp
  | cons b rest ih =>
      intro items name
      simp only [List.foldl_cons, List.map_cons, List.sum_cons]
      rw [ih, getD_lookupItem_addItems]
      ring

/-- C2: across any sequence of `add_items` calls whose requested names are
all on the menu (after lower-casing), the subtotal of the final line items
is the total requested `unitPrice * quantity`, and each final merged
quantity is the sum of all quantities requested for that name — repeated
additions accumulate additively. -/
theorem calculateSubtotal_after_addItems_batches
    (batches : List (List (String × ℤ)))
    (hval : ∀ b ∈ batches, ∀ p ∈ b,
      (lookupItem menu (pyLower (Prod.fst p))).isSome = true) :
    calculateSubtotal (batches.foldl addItems []) =
      (batches.map (fun b =>
        (b.map (fun p => unitPrice (pyLower p.1) * p.2)).sum)).sum
    ∧ ∀ name : String,
      (lookupItem (batches.foldl addItems []) name).getD 0 =
        (batches.map (fun b =>
          (b.map (fun p => if (pyLower p.1) = name then p.2 else 0)).sum)).sum := by
  constructor
  · rw [calculateSubtotal_foldl_addItems, calculateSubtotal_nil, zero_add]
    refine congrArg _ (List.map_congr_left fun b hb => ?_)
    refine congrArg _ (List.map_congr_left fun p hp => ?_)
    rw [if_pos (hval b hb p hp)]
  · intro name
    rw [getD_lookupItem_foldl_addItems]
    simp only [lookupItem, Option.getD_none, zero_add]
    refine congrArg _ (List.map_congr_left fun b hb => ?_)
    refine congrArg _ (List.map_congr_left fun p hp => ?_)
    have hv := hval b hb p hp
    by_cases hn : (pyLower (Prod.fst p)) = name
    · rw [if_pos ⟨hv, hn⟩, if_pos hn]
    · rw [if_neg (fun hc => hn hc.2), if_neg hn]

/-- C2 witness: one coffee requested twice across two calls plus a tea,
all valid, giving the stated subtotal and merged quantities. -/
theorem calculateSubtotal_after_addItems_batches_witness :
    calculateSubtotal
        ([[("Coffee", 2)], [("coffee", 1), ("tea", 3)]].foldl addItems []) =
      ([[("Coffee", 2)], [("coffee", 1), ("tea", 3)]].map
        (fun b => (b.map (fun p => unitPrice (pyLower p.1) * p.2)).sum)).sum :=
  (calculateSubtotal_after_addItems_batches
    [[("Coffee", 2)], [("coffee", 1), ("tea", 3)]] (by decide)).1

/-- C7: an entry whose lower-cased name is not on the menu is skipped
wherever it occurs in a batch — the result is as if the entry were never
requested, the other entries still apply, and no error is possible (the
function is total). -/
theorem addItems_skips_unknown_entry (items : List (String × ℤ))
    (pre post : List (String × ℤ)) (name : String) (q : ℤ)
    (hunk : (lookupItem menu (pyLower name)).isSome = false) :
    addItems items (pre ++ (name, q) :: post) = addItems items (pre ++ post) := by
  rw [addItems_append, addItems_append, addItems_cons]
  simp only [hunk, Bool.false_eq_true, if_false]

/-- C7 witness: requesting pizza between two valid items leaves exactly
the valid items applied. -/
theorem addItems_skips_unknown_entry_witness :
    addItems [] ([("Coffee", 2)] ++ ("pizza", 1) :: [("tea", 1)]) =
      addItems [] ([("Coffee", 2)] ++ [("tea", 1)]) :=
  addItems_skips_unknown_entry [] [("Coffee", 2)] [("tea", 1)] "pizza" 1
    (by decide)

theorem lookupOrder_append_of_some {l : List (ℕ × Order)} {n : ℕ}
    {o : Order} (l' : List (ℕ × Order)) (h : lookupOrder l n = some o) :
    lookupOrder (l ++ l') n = some o := by
  induction l with
  | nil => simp [lookupOrder] at h
  | cons p rest ih =>
      by_cases hp : p.1 = n
      · simp only [lookupOrder, if_pos hp] at h
        simp only [List.cons_append, lookupOrder, if_pos hp]
        exact h
      · simp only [lookupOrder, if_neg hp] at h
        simp only [List.cons_append, lookupOrder, if_neg hp]
        exact ih h

theorem lookupOrder_append_of_none {l : List (ℕ × Order)} {n : ℕ}
    (l' : List (ℕ × Order)) (h : lookupOrder l n = none) :
    lookupOrder (l ++ l') n = lookupOrder l' n := by
  induction l with
  | nil => rfl
  | cons p rest ih =>
      by_cases hp : p.1 = n
      · simp only [lookupOrder, if_pos hp] at h
        exact Option.noConfusion h
      · simp only [lookupOrder, if_neg hp] at h
        simp only [List.cons_append, lookupOrder, if_neg hp]
        exact ih h

theorem lookupOrder_eq_none_iff (l : List (ℕ × Order)) (n : ℕ) :
    lookupOrder l n = none ↔ n ∉ l.map Prod.fst := by
  induction l with
  | nil => simp [lookupOrder]
  | cons p rest ih =>
      by_cases hp : p.1 = n
      · subst hp
        simp [lookupOrder]
      · simp only [lookupOrder, if_neg hp, ih, List.map_cons,
          List.mem_cons]
        constructor
        · intro h hc
          rcases hc with hc | hc
          · exact hp hc.symm
          · exact h hc
        · intro h hc
          exact h (Or.inr hc)

theorem mem_of_lookupOrder {l : List (ℕ × Order)} {n : ℕ} {o : Order}
    (h : lookupOrder l n = some o) : (n, o) ∈ l := by
  induction l with
  | nil => simp [lookupOrder] at h
  | cons p rest ih =>
      rcases p with ⟨a, b⟩
      by_cases hp : a = n
      · simp only [lookupOrder, if_pos hp] at h
        cases h
        subst hp
        exact List.mem_cons_self _ _
      · simp only [lookupOrder, if_neg hp] at h
        exact List.mem_cons_of_mem _ (ih h)

theorem lookupOrder_of_mem_nodup {l : List (ℕ × Order)} {n : ℕ} {o : Order}
    (hnd : (l.map Prod.fst).Nodup) (h : (n, o) ∈ l) :
    lookupOrder l n = some o := by
  induction l with
  | nil => simp at h
  | cons p rest ih =>
      rcases p with ⟨a, b⟩
      simp only [List.map_cons, List.nodup_cons] at hnd
      rcases List.mem_cons.mp h with heq | hmem
      · cases heq
        simp [lookupOrder]
      · by_cases ha : a = n
        · subst ha
          exact absurd (List.mem_map_of_mem Prod.fst hmem) hnd.1
        · simp only [lookupOrder, if_neg ha]
          exact ih hnd.2 hmem

theorem map_fst_setOrder (l : List (ℕ × Order)) (n : ℕ) (o : Order) :
    (setOrder l n o).map Prod.fst = l.map Prod.fst := by
  induction l with
  | nil => rfl
  | cons p rest ih =>
      by_cases hp : p.1 = n
      · simp [setOrder, hp]
      · simp [setOrder, hp, ih]

theorem lookupOrder_setOrder_self {l : List (ℕ × Order)} {n : ℕ}
    {o₀ : Order} (o : Order) (h : lookupOrder l n = some o₀) :
    lookupOrder (setOrder l n o) n = some o := by
  induction l with
  | nil => simp [lookupOrder] at h
  | cons p rest ih =>
      by_cases hp : p.1 = n
      · simp [setOrder, hp, lookupOrder]
      · simp only [lookupOrder, if_neg hp] at h
        simp only [setOrder, if_neg hp, lookupOrder, if_neg hp]
        exact ih h

theorem lookupOrder_setOrder_ne {l : List (ℕ × Order)} {n m : ℕ}
    (o : Order) (hmn : m ≠ n) :
    lookupOrder (setOrder l n o) m = lookupOrder l m := by
  induction l with
  | nil => rfl
  | cons p rest ih =>
      by_cases hp : p.1 = n
      · have hpm : ¬ p.1 = m := fun hq => hmn (hq.symm.trans hp)
        simp only [setOrder, if_pos hp, lookupOrder, if_neg hpm]
      · simp only [setOrder, if_neg hp, lookupOrder]
        by_cases hpm : p.1 = m
        · simp [if_pos hpm]
        · simp only [if_neg hpm]
          exact ih

theorem range'_one_succ (k : ℕ) :
    List.range' 1 (k + 1) = List.range' 1 k ++ [k + 1] := by
  rw [List.range'_1_concat]
  simp [Nat.add_comm]

theorem foldl_max_range' (k : ℕ) : (List.range' 1 k).foldl max 0 = k := by
  induction k with
  | zero => rfl
  | succ k ih =>
      rw [range'_one_succ, List.foldl_append, ih]
      simp only [List.foldl_cons, List.foldl_nil]
      omega

theorem loadTablesAux_eq (entries : List (ℕ × Order)) :
    ∀ (tb : ℤ → Option ℕ) (t : ℤ),
      loadTablesAux tb entries t =
        match findLastActiveKey entries t with
        | some n => some n
        | none => tb t := by
  induction entries with
  | nil => intro tb t; rfl
  | cons p rest ih =>
      intro tb t
      show loadTablesAux
        (if p.2.is_active then updateTable tb p.2.table_number (some p.1)
         else tb) rest t = _
      rw [ih]
      cases hrest : findLastActiveKey rest t with
      | some n => simp [findLastActiveKey, hrest]
      | none =>
          simp only [findLastActiveKey, hrest]
          by_cases hact : p.2.is_active = true
          · by_cases htb : p.2.table_number = t
            · simp [hact, htb, updateTable]
            · have : ¬ t = p.2.table_number := fun h => htb h.symm
              simp [hact, htb, updateTable, this]
          · simp [hact]

theorem findLastActiveKey_some {l : List (ℕ × Order)} {t : ℤ} {n : ℕ}
    (h : findLastActiveKey l t = some n) :
    ∃ o, (n, o) ∈ l ∧ o.is_active = true ∧ o.table_number = t := by
  induction l with
  | nil => simp [findLastActiveKey] at h
  | cons p rest ih =>
      simp only [findLastActiveKey] at h
      cases hrest : findLastActiveKey rest t with
      | some m =>
          rw [hrest] at h
          cases h
          obtain ⟨o, hm, h1, h2⟩ := ih hrest
          exact ⟨o, List.mem_cons_of_mem _ hm, h1, h2⟩
      | none =>
          rw [hrest] at h
          by_cases hc : p.2.is_active = true ∧ p.2.table_number = t
          · rw [if_pos hc] at h
            cases h
            exact ⟨p.2, List.mem_cons_self _ _, hc.1, hc.2⟩
          · rw [if_neg hc] at h
            exact Option.noConfusion h

theorem findLastActiveKey_isSome_of_mem {l : List (ℕ × Order)} {t : ℤ}
    {n : ℕ} {o : Order} (hm : (n, o) ∈ l) (hact : o.is_active = true)
    (htab : o.table_number = t) :
    (findLastActiveKey l t).isSome = true := by
  induction l with
  | nil => simp at hm
  | cons p rest ih =>
      simp only [findLastActiveKey]
      cases hrest : findLastActiveKey rest t with
      | some m => simp
      | none =>
          rcases List.mem_cons.mp hm with heq | hmem
          · subst heq
            simp [hact, htab]
          · have := ih hmem
            rw [hrest] at this
            simp at this

theorem cafe_ext {c₁ c₂ : Cafe} (h1 : c₁.tables = c₂.tables)
    (h2 : c₁.orders = c₂.orders)
    (h3 : c₁.next_order_number = c₂.next_order_number) : c₁ = c₂ := by
  cases c₁
  cases c₂
  simp_all

theorem nodup_keys_of_inv {c : Cafe} (hInv : CafeInv c) :
    (c.orders.map Prod.fst).Nodup := by
  rw [hInv.keys_seq]
  exact List.nodup_range' 1 _

theorem entries_order_number_eq {c : Cafe} (hInv : CafeInv c) :
    ∀ p ∈ c.orders, (Prod.snd p : Order).order_number = p.1 := by
  intro p hp
  obtain ⟨a, b⟩ := p
  exact hInv.key_eq_number a b
    (lookupOrder_of_mem_nodup (nodup_keys_of_inv hInv) hp)

theorem ordersFromData_eq {l : List (ℕ × Order)}
    (h : ∀ p ∈ l, (Prod.snd p : Order).order_number = p.1) :
    ordersFromData l = l := by
  induction l with
  | nil => rfl
  | cons p rest ih =>
      obtain ⟨a, b⟩ := p
      have hp : b.order_number = a := h (a, b) (List.mem_cons_self _ _)
      have hrest := ih (fun q hq => h q (List.mem_cons_of_mem _ hq))
      simp only [ordersFromData, List.map_cons] at hrest ⊢
      rw [hrest]
      have hb : Order.mk b.table_number a b.items b.is_active
          b.include_packaging b.order_time = b := by
        rw [← hp]
      rw [hb]

theorem maxKey_of_inv {c : Cafe} (hInv : CafeInv c) :
    maxKey c.orders = c.next_order_number - 1 := by
  unfold maxKey
  rw [hInv.keys_seq]
  exact foldl_max_range' _

theorem loadTables_eq_of_inv {c : Cafe} (hInv : CafeInv c) :
    ∀ t, loadTablesAux (fun _ => none) c.orders t = c.tables t := by
  intro t
  rw [loadTablesAux_eq]
  cases hfl : findLastActiveKey c.orders t with
  | some n =>
      obtain ⟨o, hm, hact, htab⟩ := findLastActiveKey_some hfl
      have hlk := lookupOrder_of_mem_nodup (nodup_keys_of_inv hInv) hm
      have hat : activeAt c n t := ⟨o, hlk, hact, htab⟩
      exact ((hInv.tables_iff t n).mpr hat).symm
  | none =>
      cases htb : c.tables t with
      | none => rfl
      | some n =>
          obtain ⟨o, hlk, hact, htab⟩ := (hInv.tables_iff t n).mp htb
          have hs := findLastActiveKey_isSome_of_mem
            (mem_of_lookupOrder hlk) hact htab
          rw [hfl] at hs
          simp at hs

theorem saveLoad_eq_of_inv {c : Cafe} (hInv : CafeInv c) : saveLoad c = c := by
  have hord : ordersFromData c.orders = c.orders :=
    ordersFromData_eq (entries_order_number_eq hInv)
  apply cafe_ext
  · show (fun t => loadTablesAux (fun _ => none) c.orders t) = c.tables
    exact funext (loadTables_eq_of_inv hInv)
  · exact hord
  · show maxKey (ordersFromData c.orders) + 1 = c.next_order_number
    rw [hord, maxKey_of_inv hInv]
    have := hInv.next_pos
    omega

theorem inv_initialCafe : CafeInv initialCafe := by
  refine ⟨?_, rfl, le_refl 1, ?_⟩
  · intro n o h
    exact Option.noConfusion h
  · intro t n
    constructor
    · intro h
      exact Option.noConfusion h
    · rintro ⟨o, ho, -, -⟩
      exact Option.noConfusion ho

theorem inv_openOrder (c : Cafe) (t : ℤ) (now : String)
    (hInv : CafeInv c) : CafeInv (openOrder c t now) := by
  unfold openOrder
  by_cases hv : validTable t = true
  case neg => rw [if_neg hv]; exact hInv
  rw [if_pos hv]
  cases htab : c.tables t with
  | some n => exact hInv
  | none =>
      set N := c.next_order_number with hN
      set newo : Order :=
        { table_number := t, order_number := N, items := [],
          is_active := true, include_packaging := false,
          order_time := now } with hnewo
      have hNlk : lookupOrder c.orders N = none := by
        rw [lookupOrder_eq_none_iff, hInv.keys_seq]
        simp only [List.mem_range'_1]
        omega
      have hlook : ∀ m : ℕ, lookupOrder (c.orders ++ [(N, newo)]) m =
          if m = N then some newo else lookupOrder c.orders m := by
        intro m
        by_cases hm : m = N
        · subst hm
          rw [lookupOrder_append_of_none _ hNlk, if_pos rfl]
          simp [lookupOrder]
        · rw [if_neg hm]
          cases hc : lookupOrder c.orders m with
          | some o => exact lookupOrder_append_of_some _ hc
          | none =>
              rw [lookupOrder_append_of_none _ hc]
              simp only [lookupOrder]
              rw [if_neg (fun h : N = m => hm h.symm)]
      refine ⟨?_, ?_, ?_, ?_⟩
      · intro m o hmo
        change lookupOrder (c.orders ++ [(N, newo)]) m = some o at hmo
        rw [hlook m] at hmo
        by_cases hm : m = N
        · rw [if_pos hm] at hmo
          cases hmo
          exact hm.symm
        · rw [if_neg hm] at hmo
          exact hInv.key_eq_number m o hmo
      · show (c.orders ++ [(N, newo)]).map Prod.fst =
          List.range' 1 (N + 1 - 1)
        rw [List.map_append, hInv.keys_seq, ← hN]
        obtain ⟨k, hk⟩ : ∃ k, N = k + 1 :=
          ⟨N - 1, by have := hInv.next_pos; omega⟩
        rw [hk]
        have e1 : k + 1 - 1 = k := by omega
        have e2 : k + 1 + 1 - 1 = k + 1 := by omega
        rw [e1, e2, range'_one_succ]
        rfl
      · show 1 ≤ N + 1
        omega
      · intro u m
        constructor
        · intro hu
          change updateTable c.tables t (some N) u = some m at hu
          by_cases hut : u = t
          · subst hut
            simp only [updateTable, if_true, Option.some.injEq] at hu
            refine ⟨newo, ?_, rfl, rfl⟩
            show lookupOrder (c.orders ++ [(N, newo)]) m = some newo
            rw [hlook m, if_pos hu.symm]
          · have hu' : c.tables u = some m := by
              simpa [updateTable, hut] using hu
            obtain ⟨o, ho, hoact, hotab⟩ := (hInv.tables_iff u m).mp hu'
            refine ⟨o, ?_, hoact, hotab⟩
            show lookupOrder (c.orders ++ [(N, newo)]) m = some o
            rw [hlook m]
            have hmN : ¬ m = N := by
              intro he
              rw [he, hNlk] at ho
              exact Option.noConfusion ho
            rw [if_neg hmN]
            exact ho
        · rintro ⟨o, ho, hoact, hotab⟩
          change lookupOrder (c.orders ++ [(N, newo)]) m = some o at ho
          rw [hlook m] at ho
          show updateTable c.tables t (some N) u = some m
          by_cases hmN : m = N
          · rw [if_pos hmN] at ho
            cases ho
            have hut : u = t := by
              rw [hnewo] at hotab
              exact hotab.symm
            subst hut
            simp only [updateTable, if_true]
            rw [hmN]
          · rw [if_neg hmN] at ho
            have hcu := (hInv.tables_iff u m).mpr ⟨o, ho, hoact, hotab⟩
            by_cases hut : u = t
            · subst hut
              rw [htab] at hcu
              exact Option.noConfusion hcu
            · simpa [updateTable, hut] using hcu

theorem inv_addItemsToOrder (c : Cafe) (t : ℤ) (req : List (String × ℤ))
    (hInv : CafeInv c) : CafeInv (addItemsToOrder c t req) := by
  unfold addItemsToOrder
  split
  case isFalse => exact hInv
  split
  case h_2 => exact hInv
  rename_i n htab
  split
  case h_2 => exact hInv
  rename_i o hlk
  split
  case isFalse => exact hInv
  rename_i hact
  set o' : Order := { o with items := addItems o.items req }
    with ho'
  have hself : lookupOrder (setOrder c.orders n o') n = some o' :=
    lookupOrder_setOrder_self o' hlk
  have hne : ∀ m, m ≠ n →
      lookupOrder (setOrder c.orders n o') m =
        lookupOrder c.orders m :=
    fun m hm => lookupOrder_setOrder_ne o' hm
  refine ⟨?_, ?_, hInv.next_pos, ?_⟩
  · intro m ob hm
    change lookupOrder (setOrder c.orders n o') m = some ob at hm
    by_cases hmn : m = n
    · subst hmn
      rw [hself] at hm
      cases hm
      show o.order_number = m
      exact hInv.key_eq_number m o hlk
    · rw [hne m hmn] at hm
      exact hInv.key_eq_number m ob hm
  · show (setOrder c.orders n o').map Prod.fst = _
    rw [map_fst_setOrder]
    exact hInv.keys_seq
  · intro u m
    constructor
    · intro hu
      change c.tables u = some m at hu
      obtain ⟨ob, hob, hoact, hotab⟩ := (hInv.tables_iff u m).mp hu
      by_cases hmn : m = n
      · subst hmn
        rw [hlk] at hob
        cases hob
        exact ⟨o', hself, hoact, hotab⟩
      · refine ⟨ob, ?_, hoact, hotab⟩
        show lookupOrder (setOrder c.orders n o') m = some ob
        rw [hne m hmn]
        exact hob
    · rintro ⟨ob, hob, hoact, hotab⟩
      change lookupOrder (setOrder c.orders n o') m = some ob at hob
      show c.tables u = some m
      by_cases hmn : m = n
      · subst hmn
        rw [hself] at hob
        cases hob
        exact (hInv.tables_iff u m).mpr ⟨o, hlk, hoact, hotab⟩
      · rw [hne m hmn] at hob
        exact (hInv.tables_iff u m).mpr ⟨ob, hob, hoact, hotab⟩

theorem inv_closeOrder (c : Cafe) (t : ℤ) (pack : Bool)
    (hInv : CafeInv c) : CafeInv (closeOrder c t pack) := by
  unfold closeOrder
  split
  case isFalse => exact hInv
  split
  case h_2 => exact hInv
  rename_i n htab
  split
  case h_2 => exact hInv
  rename_i o hlk
  split
  case isFalse => exact hInv
  rename_i hact
  set o' : Order :=
    { o with include_packaging := pack, is_active := false }
    with ho'
  have hself : lookupOrder (setOrder c.orders n o') n = some o' :=
    lookupOrder_setOrder_self o' hlk
  have hne : ∀ m, m ≠ n →
      lookupOrder (setOrder c.orders n o') m =
        lookupOrder c.orders m :=
    fun m hm => lookupOrder_setOrder_ne o' hm
  refine ⟨?_, ?_, hInv.next_pos, ?_⟩
  · intro m ob hm
    change lookupOrder (setOrder c.orders n o') m = some ob at hm
    by_cases hmn : m = n
    · subst hmn
      rw [hself] at hm
      cases hm
      show o.order_number = m
      exact hInv.key_eq_number m o hlk
    · rw [hne m hmn] at hm
      exact hInv.key_eq_number m ob hm
  · show (setOrder c.orders n o').map Prod.fst = _
    rw [map_fst_setOrder]
    exact hInv.keys_seq
  · intro u m
    constructor
    · intro hu
      change updateTable c.tables t none u = some m at hu
      by_cases hut : u = t
      · subst hut
        simp only [updateTable, if_true] at hu
        exact Option.noConfusion hu
      · have hu' : c.tables u = some m := by
          simpa [updateTable, hut] using hu
        obtain ⟨ob, hob, hoact, hotab⟩ :=
          (hInv.tables_iff u m).mp hu'
        by_cases hmn : m = n
        · subst hmn
          exfalso
          rw [hlk] at hob
          cases hob
          obtain ⟨oc, hoc, -, hoct⟩ := (hInv.tables_iff t m).mp htab
          rw [hlk] at hoc
          cases hoc
          exact hut (hotab.symm.trans hoct)
        · refine ⟨ob, ?_, hoact, hotab⟩
          show lookupOrder (setOrder c.orders n o') m = some ob
          rw [hne m hmn]
          exact hob
    · rintro ⟨ob, hob, hoact, hotab⟩
      change lookupOrder (setOrder c.orders n o') m = some ob at hob
      show updateTable c.tables t none u = some m
      by_cases hmn : m = n
      · subst hmn
        rw [hself] at hob
        cases hob
        exact absurd hoact (by simp [ho'])
      · rw [hne m hmn] at hob
        have hcu := (hInv.tables_iff u m).mpr ⟨ob, hob, hoact, hotab⟩
        by_cases hut : u = t
        · subst hut
          rw [htab] at hcu
          cases hcu
          exact absurd rfl hmn
        · simpa [updateTable, hut] using hcu

theorem inv_applyOp {c : Cafe} (op : Op) (hInv : CafeInv c) :
    CafeInv (applyOp c op) := by
  cases op with
  | openOp t now => exact inv_openOrder c t now hInv
  | addOp t req => exact inv_addItemsToOrder c t req hInv
  | closeOp t pack => exact inv_closeOrder c t pack hInv
  | reloadOp =>
      show CafeInv (saveLoad c)
      rw [saveLoad_eq_of_inv hInv]
      exact hInv

theorem inv_runFrom (ops : List Op) :
    ∀ {c : Cafe}, CafeInv c → CafeInv (runFrom c ops) := by
  induction ops with
  | nil => intro c h; exact h
  | cons op rest ih =>
      intro c h
      exact ih (inv_applyOp op h)

theorem reachable_inv {c : Cafe} (h : Reachable c) : CafeInv c := by
  obtain ⟨ops, rfl⟩ := h
  exact inv_runFrom ops inv_initialCafe

theorem openOrder_invalid_eq (c : Cafe) (t : ℤ) (now : String)
    (hv : validTable t = false) : openOrder c t now = c := by
  unfold openOrder
  rw [hv]
  rfl

theorem openOrder_occupied_eq (c : Cafe) (t : ℤ) (now : String) (n : ℕ)
    (htab : c.tables t = some n) : openOrder c t now = c := by
  unfold openOrder
  split
  · split
    · rename_i heq
      rw [htab] at heq
      exact Option.noConfusion heq
    · rfl
  · rfl

theorem openOrder_free_eq (c : Cafe) (t : ℤ) (now : String)
    (hv : validTable t = true) (hfree : c.tables t = none) :
    openOrder c t now =
      { tables := updateTable c.tables t (some c.next_order_number),
        orders := c.orders ++
          [(c.next_order_number,
            Order.mk t c.next_order_number [] true false now)],
        next_order_number := c.next_order_number + 1 } := by
  unfold openOrder
  rw [if_pos hv, hfree]

theorem closeOrder_active_eq (c : Cafe) (t : ℤ) (pack : Bool) (n : ℕ)
    (o : Order) (hv : validTable t = true) (htab : c.tables t = some n)
    (hlk : lookupOrder c.orders n = some o) (hact : o.is_active = true) :
    closeOrder c t pack =
      { c with
        orders := setOrder c.orders n
          { o with include_packaging := pack, is_active := false },
        tables := updateTable c.tables t none } := by
  unfold closeOrder
  split
  case isFalse h => exact absurd hv h
  split
  case h_2 heq =>
    rw [htab] at heq
    exact Option.noConfusion heq
  rename_i n' htab'
  rw [htab] at htab'
  cases htab'
  split
  case h_2 heq =>
    rw [hlk] at heq
    exact Option.noConfusion heq
  rename_i o' hlk'
  rw [hlk] at hlk'
  cases hlk'
  split
  case isFalse h => exact absurd hact h
  rfl

theorem addItemsToOrder_fields (c : Cafe) (t : ℤ)
    (req : List (String × ℤ)) :
    (addItemsToOrder c t req).orders.map Prod.fst = c.orders.map Prod.fst
    ∧ (addItemsToOrder c t req).next_order_number = c.next_order_number
    ∧ (addItemsToOrder c t req).tables = c.tables := by
  unfold addItemsToOrder
  split
  case isFalse => exact ⟨rfl, rfl, rfl⟩
  split
  case h_2 => exact ⟨rfl, rfl, rfl⟩
  split
  case h_2 => exact ⟨rfl, rfl, rfl⟩
  split
  case isFalse => exact ⟨rfl, rfl, rfl⟩
  rename_i n htab o hlk hact
  exact ⟨map_fst_setOrder _ _ _, rfl, rfl⟩

theorem closeOrder_fields (c : Cafe) (t : ℤ) (pack : Bool) :
    (closeOrder c t pack).orders.map Prod.fst = c.orders.map Prod.fst
    ∧ (closeOrder c t pack).next_order_number = c.next_order_number := by
  unfold closeOrder
  split
  case isFalse => exact ⟨rfl, rfl⟩
  split
  case h_2 => exact ⟨rfl, rfl⟩
  split
  case h_2 => exact ⟨rfl, rfl⟩
  split
  case isFalse => exact ⟨rfl, rfl⟩
  exact ⟨map_fst_setOrder _ _ _, rfl⟩

theorem lookupOrder_append_cases {l l' : List (ℕ × Order)} {n : ℕ}
    {o : Order} (h : lookupOrder (l ++ l') n = some o) :
    lookupOrder l n = some o ∨ lookupOrder l' n = some o := by
  cases hc : lookupOrder l n with
  | some o₁ =>
      rw [lookupOrder_append_of_some _ hc] at h
      injection h with h
      subst h
      exact Or.inl rfl
  | none =>
      rw [lookupOrder_append_of_none _ hc] at h
      exact Or.inr h

theorem lookupOrder_isSome_iff (l : List (ℕ × Order)) (n : ℕ) :
    (lookupOrder l n).isSome = true ↔ n ∈ l.map Prod.fst := by
  rw [Option.isSome_iff_ne_none, Ne, lookupOrder_eq_none_iff, not_not]

theorem maxKey_ordersFromData (l : List (ℕ × Order)) :
    maxKey (ordersFromData l) = maxKey l := by
  unfold maxKey ordersFromData
  rw [List.map_map]
  rfl

theorem lookupOrder_ordersFromData (l : List (ℕ × Order)) (m : ℕ) :
    lookupOrder (ordersFromData l) m =
      (lookupOrder l m).map (fun o =>
        Order.mk o.table_number m o.items o.is_active
          o.include_packaging o.order_time) := by
  induction l with
  | nil => rfl
  | cons p rest ih =>
      by_cases hp : p.1 = m
      · simp only [ordersFromData, List.map_cons, lookupOrder, if_pos hp,
          Option.map_some']
        rw [hp]
      · simp only [ordersFromData, List.map_cons, lookupOrder, if_neg hp]
        exact ih

theorem closed_order_frozen (op : Op) {c : Cafe} {n : ℕ} {o : Order}
    (hInv : CafeInv c) (h : lookupOrder c.orders n = some o)
    (hcl : o.is_active = false) :
    lookupOrder (applyOp c op).orders n = some o := by
  cases op with
  | openOp t now =>
      show lookupOrder (openOrder c t now).orders n = some o
      unfold openOrder
      split
      · split
        · exact lookupOrder_append_of_some _ h
        · exact h
      · exact h
  | addOp t req =>
      show lookupOrder (addItemsToOrder c t req).orders n = some o
      unfold addItemsToOrder
      split
      case isFalse => exact h
      split
      case h_2 => exact h
      rename_i m htab
      split
      case h_2 => exact h
      rename_i ob hlk
      split
      case isFalse => exact h
      rename_i hact
      have hmn : n ≠ m := by
        intro he
        rw [he, hlk] at h
        injection h with h
        rw [h] at hact
        rw [hcl] at hact
        exact Bool.noConfusion hact
      show lookupOrder (setOrder c.orders m
        { ob with items := addItems ob.items req }) n = some o
      rw [lookupOrder_setOrder_ne _ hmn]
      exact h
  | closeOp t pack =>
      show lookupOrder (closeOrder c t pack).orders n = some o
      unfold closeOrder
      split
      case isFalse => exact h
      split
      case h_2 => exact h
      rename_i m htab
      split
      case h_2 => exact h
      rename_i ob hlk
      split
      case isFalse => exact h
      rename_i hact
      have hmn : n ≠ m := by
        intro he
        rw [he, hlk] at h
        injection h with h
        rw [h] at hact
        rw [hcl] at hact
        exact Bool.noConfusion hact
      show lookupOrder (setOrder c.orders m
        { ob with include_packaging := pack, is_active := false }) n
        = some o
      rw [lookupOrder_setOrder_ne _ hmn]
      exact h
  | reloadOp =>
      show lookupOrder (saveLoad c).orders n = some o
      rw [saveLoad_eq_of_inv hInv]
      exact h

theorem closed_order_frozen_run (ops : List Op) :
    ∀ {c : Cafe} {n : ℕ} {o : Order}, CafeInv c →
      lookupOrder c.orders n = some o → o.is_active = false →
      lookupOrder (runFrom c ops).orders n = some o := by
  induction ops with
  | nil => intro c n o _ h _; exact h
  | cons op rest ih =>
      intro c n o hInv h hcl
      exact ih (inv_applyOp op hInv) (closed_order_frozen op hInv h hcl) hcl

theorem bumpItem_forall_keys {items : List (String × ℤ)} {name : String}
    {q : ℤ}
    (h : ∀ p ∈ items, (lookupItem menu (Prod.fst p)).isSome = true)
    (hn : (lookupItem menu name).isSome = true) :
    ∀ p ∈ bumpItem items name q,
      (lookupItem menu (Prod.fst p)).isSome = true := by
  induction items with
  | nil =>
      intro p hp
      simp only [bumpItem, List.mem_singleton] at hp
      subst hp
      exact hn
  | cons p0 rest ih =>
      intro p hp
      simp only [bumpItem] at hp
      split at hp
      · rcases List.mem_cons.mp hp with he | hm
        · subst he
          exact h p0 (List.mem_cons_self _ _)
        · exact h p (List.mem_cons_of_mem _ hm)
      · rcases List.mem_cons.mp hp with he | hm
        · subst he
          exact h p (List.mem_cons_self _ _)
        · exact ih (fun r hr => h r (List.mem_cons_of_mem _ hr)) p hm

theorem bumpItem_forall_pos {items : List (String × ℤ)} {name : String}
    {q : ℤ} (h : ∀ p ∈ items, 1 ≤ p.2) (hq : 1 ≤ q) :
    ∀ p ∈ bumpItem items name q, 1 ≤ p.2 := by
  induction items with
  | nil =>
      intro p hp
      simp only [bumpItem, List.mem_singleton] at hp
      subst hp
      exact hq
  | cons p0 rest ih =>
      intro p hp
      simp only [bumpItem] at hp
      split at hp
      · rcases List.mem_cons.mp hp with he | hm
        · subst he
          have h0 := h p0 (List.mem_cons_self _ _)
          show 1 ≤ p0.2 + q
          omega
        · exact h p (List.mem_cons_of_mem _ hm)
      · rcases List.mem_cons.mp hp with he | hm
        · subst he
          exact h p (List.mem_cons_self _ _)
        · exact ih (fun r hr => h r (List.mem_cons_of_mem _ hr)) p hm

theorem addItems_forall_keys (req : List (String × ℤ)) :
    ∀ {items : List (String × ℤ)},
      (∀ p ∈ items, (lookupItem menu (Prod.fst p)).isSome = true) →
      ∀ p ∈ addItems items req,
        (lookupItem menu (Prod.fst p)).isSome = true := by
  induction req with
  | nil => intro items h; exact h
  | cons r rest ih =>
      intro items h
      rw [addItems_cons]
      by_cases hv : (lookupItem menu (pyLower r.1)).isSome = true
      · rw [if_pos hv]
        exact ih (bumpItem_forall_keys h hv)
      · rw [if_neg hv]
        exact ih h

theorem addItems_forall_pos (req : List (String × ℤ)) :
    ∀ {items : List (String × ℤ)},
      (∀ p ∈ items, 1 ≤ p.2) → (∀ p ∈ req, 1 ≤ p.2) →
      ∀ p ∈ addItems items req, 1 ≤ p.2 := by
  induction req with
  | nil => intro items h _; exact h
  | cons r rest ih =>
      intro items h hreq
      rw [addItems_cons]
      have hr : 1 ≤ r.2 := hreq r (List.mem_cons_self _ _)
      have hrest : ∀ p ∈ rest, 1 ≤ p.2 :=
        fun p hp => hreq p (List.mem_cons_of_mem _ hp)
      by_cases hv : (lookupItem menu (pyLower r.1)).isSome = true
      · rw [if_pos hv]
        exact ih (bumpItem_forall_pos h hr) hrest
      · rw [if_neg hv]
        exact ih h hrest

theorem itemsOnMenu_applyOp (op : Op) {c : Cafe} (hInv : CafeInv c)
    (h : ItemsOnMenu c) : ItemsOnMenu (applyOp c op) := by
  cases op with
  | openOp t now =>
      intro m o hm
      change lookupOrder (openOrder c t now).orders m = some o at hm
      unfold openOrder at hm
      split at hm
      · split at hm
        · rcases lookupOrder_append_cases hm with hc | hc
          · exact h m o hc
          · simp only [lookupOrder] at hc
            split at hc
            · injection hc with hc
              subst hc
              intro p hp
              simp at hp
            · exact Option.noConfusion hc
        · exact h m o hm
      · exact h m o hm
  | addOp t req =>
      intro m o hm
      change lookupOrder (addItemsToOrder c t req).orders m = some o at hm
      unfold addItemsToOrder at hm
      split at hm
      case isFalse => exact h m o hm
      split at hm
      case h_2 => exact h m o hm
      rename_i k htab
      split at hm
      case h_2 => exact h m o hm
      rename_i ob hlk
      split at hm
      case isFalse => exact h m o hm
      rename_i hact
      change lookupOrder (setOrder c.orders k
        { ob with items := addItems ob.items req }) m = some o at hm
      by_cases hmk : m = k
      · subst hmk
        rw [lookupOrder_setOrder_self _ hlk] at hm
        injection hm with hm
        subst hm
        exact addItems_forall_keys req (h m ob hlk)
      · rw [lookupOrder_setOrder_ne _ hmk] at hm
        exact h m o hm
  | closeOp t pack =>
      intro m o hm
      change lookupOrder (closeOrder c t pack).orders m = some o at hm
      unfold closeOrder at hm
      split at hm
      case isFalse => exact h m o hm
      split at hm
      case h_2 => exact h m o hm
      rename_i k htab
      split at hm
      case h_2 => exact h m o hm
      rename_i ob hlk
      split at hm
      case isFalse => exact h m o hm
      rename_i hact
      change lookupOrder (setOrder c.orders k
        { ob with include_packaging := pack, is_active := false }) m
        = some o at hm
      by_cases hmk : m = k
      · subst hmk
        rw [lookupOrder_setOrder_self _ hlk] at hm
        injection hm with hm
        subst hm
        exact h m ob hlk
      · rw [lookupOrder_setOrder_ne _ hmk] at hm
        exact h m o hm
  | reloadOp =>
      intro m o hm
      change lookupOrder (saveLoad c).orders m = some o at hm
      rw [saveLoad_eq_of_inv hInv] at hm
      exact h m o hm

theorem itemsPositive_applyOp (op : Op) {c : Cafe} (hInv : CafeInv c)
    (hpos : opPositive op) (h : ItemsPositive c) :
    ItemsPositive (applyOp c op) := by
  cases op with
  | openOp t now =>
      intro m o hm
      change lookupOrder (openOrder c t now).orders m = some o at hm
      unfold openOrder at hm
      split at hm
      · split at hm
        · rcases lookupOrder_append_cases hm with hc | hc
          · exact h m o hc
          · simp only [lookupOrder] at hc
            split at hc
            · injection hc with hc
              subst hc
              intro p hp
              simp at hp
            · exact Option.noConfusion hc
        · exact h m o hm
      · exact h m o hm
  | addOp t req =>
      intro m o hm
      change lookupOrder (addItemsToOrder c t req).orders m = some o at hm
      unfold addItemsToOrder at hm
      split at hm
      case isFalse => exact h m o hm
      split at hm
      case h_2 => exact h m o hm
      rename_i k htab
      split at hm
      case h_2 => exact h m o hm
      rename_i ob hlk
      split at hm
      case isFalse => exact h m o hm
      rename_i hact
      change lookupOrder (setOrder c.orders k
        { ob with items := addItems ob.items req }) m = some o at hm
      by_cases hmk : m = k
      · subst hmk
        rw [lookupOrder_setOrder_self _ hlk] at hm
        injection hm with hm
        subst hm
        exact addItems_forall_pos req (h m ob hlk) hpos
      · rw [lookupOrder_setOrder_ne _ hmk] at hm
        exact h m o hm
  | closeOp t pack =>
      intro m o hm
      change lookupOrder (closeOrder c t pack).orders m = some o at hm
      unfold closeOrder at hm
      split at hm
      case isFalse => exact h m o hm
      split at hm
      case h_2 => exact h m o hm
      rename_i k htab
      split at hm
      case h_2 => exact h m o hm
      rename_i ob hlk
      split at hm
      case isFalse => exact h m o hm
      rename_i hact
      change lookupOrder (setOrder c.orders k
        { ob with include_packaging := pack, is_active := false }) m
        = some o at hm
      by_cases hmk : m = k
      · subst hmk
        rw [lookupOrder_setOrder_self _ hlk] at hm
        injection hm with hm
        subst hm
        exact h m ob hlk
      · rw [lookupOrder_setOrder_ne _ hmk] at hm
        exact h m o hm
  | reloadOp =>
      intro m o hm
      change lookupOrder (saveLoad c).orders m = some o at hm
      rw [saveLoad_eq_of_inv hInv] at hm
      exact h m o hm

theorem itemsOnMenu_runFrom (ops : List Op) :
    ∀ {c : Cafe}, CafeInv c → ItemsOnMenu c →
      ItemsOnMenu (runFrom c ops) := by
  induction ops with
  | nil => intro c _ h; exact h
  | cons op rest ih =>
      intro c hInv h
      exact ih (inv_applyOp op hInv) (itemsOnMenu_applyOp op hInv h)

theorem itemsPositive_runFrom (ops : List Op) :
    ∀ {c : Cafe}, CafeInv c → (∀ op ∈ ops, opPositive op) →
      ItemsPositive c → ItemsPositive (runFrom c ops) := by
  induction ops with
  | nil => intro c _ _ h; exact h
  | cons op rest ih =>
      intro c hInv hpos h
      exact ih (inv_applyOp op hInv)
        (fun r hr => hpos r (List.mem_cons_of_mem _ hr))
        (itemsPositive_applyOp op hInv (hpos op (List.mem_cons_self _ _)) h)

theorem itemsOnMenu_initialCafe : ItemsOnMenu initialCafe := by
  intro n o h
  exact Option.noConfusion h

theorem itemsPositive_initialCafe : ItemsPositive initialCafe := by
  intro n o h
  exact Option.noConfusion h

/-- C6: calling `open_order` on a table that already holds an order
fails without creating anything: the registry is unchanged, so no order
number is allocated, the counter is untouched, and the orders and
tables maps are exactly as before. -/
theorem openOrder_occupied_no_change (c : Cafe) (t : ℤ) (now : String)
    (n : ℕ) (htab : c.tables t = some n) :
    openOrder c t now = c
    ∧ (openOrder c t now).next_order_number = c.next_order_number
    ∧ (openOrder c t now).orders = c.orders
    ∧ ∀ u, (openOrder c t now).tables u = c.tables u := by
  have he := openOrder_occupied_eq c t now n htab
  exact ⟨he, by rw [he], by rw [he], fun u => by rw [he]⟩

/-- C6 witness: re-opening occupied table 1 changes nothing. -/
theorem openOrder_occupied_no_change_witness :
    openOrder (openOrder initialCafe 1 "a") 1 "b"
      = openOrder initialCafe 1 "a" :=
  (openOrder_occupied_no_change (openOrder initialCafe 1 "a") 1 "b" 1
    (by decide)).1

/-- C4: saving the whole registry and loading it into a fresh `Cafe`
reconstructs the state identically — table occupancy, line items,
active and packaging flags, and timestamps of every order — and the
counter after reload is `max(existing order numbers) + 1`, or 1 when no
orders exist. -/
theorem saveLoad_roundtrip (c : Cafe) (hreach : Reachable c) :
    saveLoad c = c
    ∧ (saveLoad c).next_order_number = maxKey (saveOrders c) + 1
    ∧ (saveOrders c = [] → (saveLoad c).next_order_number = 1) := by
  have hInv := reachable_inv hreach
  refine ⟨saveLoad_eq_of_inv hInv, ?_, ?_⟩
  · show maxKey (ordersFromData (saveOrders c)) + 1 =
      maxKey (saveOrders c) + 1
    rw [maxKey_ordersFromData]
  · intro h
    show maxKey (ordersFromData (saveOrders c)) + 1 = 1
    rw [h]
    rfl

/-- C4 witness: round trip of the registry with one open order. -/
theorem saveLoad_roundtrip_witness :
    saveLoad (runOps [Op.openOp 2 "x"]) = runOps [Op.openOp 2 "x"] :=
  (saveLoad_roundtrip (runOps [Op.openOp 2 "x"])
    ⟨[Op.openOp 2 "x"], rfl⟩).1

/-- C5: closing the active order of a table is a one-way terminal
transition: the order becomes inactive with the chosen packaging flag,
the table becomes free, an immediate re-open of the same table succeeds
with a fresh order number, and under every subsequent operation
sequence the closed order stays inactive and its line items are never
changed again. -/
theorem closeOrder_terminal (c : Cafe) (t : ℤ) (pack : Bool) (n : ℕ)
    (hreach : Reachable c) (hv : validTable t = true)
    (htab : c.tables t = some n) :
    ∃ o, lookupOrder c.orders n = some o ∧ o.is_active = true
      ∧ (closeOrder c t pack).tables t = none
      ∧ lookupOrder (closeOrder c t pack).orders n =
          some { o with include_packaging := pack, is_active := false }
      ∧ (∀ now, (openOrder (closeOrder c t pack) t now).tables t =
          some (closeOrder c t pack).next_order_number)
      ∧ ∀ ops o',
          lookupOrder (runFrom (closeOrder c t pack) ops).orders n =
            some o' →
          o'.is_active = false ∧ o'.items = o.items := by
  have hInv := reachable_inv hreach
  obtain ⟨o, hlk, hact, htabn⟩ := (hInv.tables_iff t n).mp htab
  have hce := closeOrder_active_eq c t pack n o hv htab hlk hact
  have htfree : (closeOrder c t pack).tables t = none := by
    rw [hce]
    show updateTable c.tables t none t = none
    simp [updateTable]
  have hlk' : lookupOrder (closeOrder c t pack).orders n =
      some { o with include_packaging := pack, is_active := false } := by
    rw [hce]
    exact lookupOrder_setOrder_self _ hlk
  refine ⟨o, hlk, hact, htfree, hlk', ?_, ?_⟩
  · intro now
    rw [openOrder_free_eq _ t now hv htfree]
    show updateTable (closeOrder c t pack).tables t
      (some (closeOrder c t pack).next_order_number) t = some _
    simp [updateTable]
  · intro ops o' hl
    have hInv' := inv_closeOrder c t pack hInv
    have hfr := closed_order_frozen_run ops hInv' hlk' rfl
    rw [hfr] at hl
    injection hl with hl
    subst hl
    exact ⟨rfl, rfl⟩

/-- C5 witness: open table 1, close it with packaging; the instance of
the terminal-transition property at that concrete state. -/
theorem closeOrder_terminal_witness :
    ∃ o, lookupOrder (runOps [Op.openOp 1 "a"]).orders 1 = some o
      ∧ o.is_active = true
      ∧ (closeOrder (runOps [Op.openOp 1 "a"]) 1 true).tables 1 = none
      ∧ lookupOrder
          (closeOrder (runOps [Op.openOp 1 "a"]) 1 true).orders 1 =
          some { o with include_packaging := true, is_active := false }
      ∧ (∀ now,
          (openOrder (closeOrder (runOps [Op.openOp 1 "a"]) 1 true) 1
            now).tables 1 =
          some (closeOrder (runOps [Op.openOp 1 "a"]) 1
            true).next_order_number)
      ∧ ∀ ops o',
          lookupOrder (runFrom
            (closeOrder (runOps [Op.openOp 1 "a"]) 1 true) ops).orders 1 =
            some o' →
          o'.is_active = false ∧ o'.items = o.items :=
  closeOrder_terminal (runOps [Op.openOp 1 "a"]) 1 true 1
    ⟨[Op.openOp 1 "a"], rfl⟩ (by decide) (by decide)

/-- C8: `view_order_summary` returns `notFound` when the number is not
in the orders map, returns `stillActive` (and in particular never a
computed report) when the order is active, and otherwise returns the
full report: the item breakdown with unit prices and line totals, the
subtotal, both taxes, the packaging line exactly when the flag is set,
and the grand total.  The embedding is a pure read of the registry — the
source only reads state and prints — so the state is unchanged in every
case by construction. -/
theorem viewOrderSummary_cases (c : Cafe) (n : ℕ) :
    (lookupOrder c.orders n = none →
      viewOrderSummary c n = SummaryResult.notFound)
    ∧ (∀ o, lookupOrder c.orders n = some o → o.is_active = true →
        viewOrderSummary c n = SummaryResult.stillActive)
    ∧ (∀ o, lookupOrder c.orders n = some o → o.is_active = false →
        viewOrderSummary c n =
          SummaryResult.report o.table_number o.order_time
            (o.items.map (fun p =>
              (p.1, p.2, unitPrice p.1, unitPrice p.1 * p.2)))
            (calculateSubtotal o.items)
            (calculateTaxes (calculateSubtotal o.items)).1
            (calculateTaxes (calculateSubtotal o.items)).2
            (if o.include_packaging then some PACKAGING_COST else none)
            ((calculateSubtotal o.items : ℚ)
              + (calculateTaxes (calculateSubtotal o.items)).1
              + (calculateTaxes (calculateSubtotal o.items)).2
              + (if o.include_packaging then (PACKAGING_COST : ℚ)
                 else 0))) := by
  refine ⟨?_, ?_, ?_⟩
  · intro h
    unfold viewOrderSummary
    split
    · rfl
    · rename_i o' heq
      rw [h] at heq
      exact Option.noConfusion heq
  · intro o h hact
    unfold viewOrderSummary
    split
    · rename_i heq
      rw [h] at heq
      exact Option.noConfusion heq
    · rename_i o' heq
      rw [h] at heq
      injection heq with heq
      subst heq
      rw [if_pos hact]
  · intro o h hact
    unfold viewOrderSummary
    split
    · rename_i heq
      rw [h] at heq
      exact Option.noConfusion heq
    · rename_i o' heq
      rw [h] at heq
      injection heq with heq
      subst heq
      rw [if_neg (fun hc => by rw [hact] at hc; exact Bool.noConfusion hc)]
      cases hpk : o.include_packaging <;> simp [hpk]

/-- C8 witness: a missing number, an open order, and a closed packaged
order, each reported as the theorem describes. -/
theorem viewOrderSummary_cases_witness :
    viewOrderSummary (runOps [Op.openOp 1 "t"]) 5 = SummaryResult.notFound
    ∧ viewOrderSummary (runOps [Op.openOp 1 "t"]) 1 =
        SummaryResult.stillActive
    ∧ viewOrderSummary (runOps [Op.openOp 1 "t", Op.closeOp 1 true]) 1 =
        SummaryResult.report
          (Order.mk 1 1 [] false true "t").table_number
          (Order.mk 1 1 [] false true "t").order_time
          ((Order.mk 1 1 [] false true "t").items.map (fun p =>
            (p.1, p.2, unitPrice p.1, unitPrice p.1 * p.2)))
          (calculateSubtotal (Order.mk 1 1 [] false true "t").items)
          (calculateTaxes (calculateSubtotal
            (Order.mk 1 1 [] false true "t").items)).1
          (calculateTaxes (calculateSubtotal
            (Order.mk 1 1 [] false true "t").items)).2
          (if (Order.mk 1 1 [] false true "t").include_packaging then
            some PACKAGING_COST else none)
          ((calculateSubtotal (Order.mk 1 1 [] false true "t").items : ℚ)
            + (calculateTaxes (calculateSubtotal
                (Order.mk 1 1 [] false true "t").items)).1
            + (calculateTaxes (calculateSubtotal
                (Order.mk 1 1 [] false true "t").items)).2
            + (if (Order.mk 1 1 [] false true "t").include_packaging then
                (PACKAGING_COST : ℚ) else 0)) :=
  ⟨(viewOrderSummary_cases (runOps [Op.openOp 1 "t"]) 5).1 (by decide),
   (viewOrderSummary_cases (runOps [Op.openOp 1 "t"]) 1).2.1
     (Order.mk 1 1 [] true false "t") (by decide) rfl,
   (viewOrderSummary_cases (runOps [Op.openOp 1 "t", Op.closeOp 1 true])
     1).2.2 (Order.mk 1 1 [] false true "t") (by decide) rfl⟩

/-- C9 counterexample: the claim "every stored quantity is ≥ 1 after
every operation" fails on the code.  Opening table 1 and then requesting
zero coffees — the interactive layer parses any integer quantity,
including 0 and negatives — reaches a registry whose order stores the
line item `("coffee", 0)` with quantity < 1, because `add_items` never
checks the quantity. -/
theorem line_item_zero_quantity_counterexample :
    Reachable zeroQuantityCafe
    ∧ lookupOrder zeroQuantityCafe.orders 1 =
        some (Order.mk 1 1 [("coffee", 0)] true false
          "2024-01-01 10:00:00")
    ∧ ∃ p ∈ (Order.mk 1 1 [("coffee", 0)] true false
        "2024-01-01 10:00:00").items, p.2 < 1 :=
  ⟨⟨[Op.openOp 1 "2024-01-01 10:00:00", Op.addOp 1 [("coffee", 0)]],
    rfl⟩,
   by decide,
   ("coffee", 0), by decide, by decide⟩

/-- C9 amended: every key of every stored order's line items is always a
valid menu name; and, provided every quantity requested across all
addItems operations is at least 1, every stored quantity is at least 1
after every operation. -/
theorem line_items_valid_and_positive (ops : List Op) (n : ℕ) (o : Order)
    (h : lookupOrder (runOps ops).orders n = some o) :
    (∀ p ∈ o.items, (lookupItem menu (Prod.fst p)).isSome = true)
    ∧ ((∀ op ∈ ops, opPositive op) → ∀ p ∈ o.items, 1 ≤ p.2) := by
  constructor
  · exact itemsOnMenu_runFrom ops inv_initialCafe itemsOnMenu_initialCafe
      n o h
  · intro hpos
    exact itemsPositive_runFrom ops inv_initialCafe hpos
      itemsPositive_initialCafe n o h

/-- C9 amended witness: two coffees on table 1, all quantities
positive. -/
theorem line_items_valid_and_positive_witness :
    (∀ p ∈ (Order.mk 1 1 [("coffee", 2)] true false "a").items,
      (lookupItem menu (Prod.fst p)).isSome = true)
    ∧ ∀ p ∈ (Order.mk 1 1 [("coffee", 2)] true false "a").items,
        1 ≤ p.2 := by
  have h := line_items_valid_and_positive
    [Op.openOp 1 "a", Op.addOp 1 [("coffee", 2)]] 1
    (Order.mk 1 1 [("coffee", 2)] true false "a") (by decide)
  refine ⟨h.1, h.2 ?_⟩
  intro op hop
  rcases List.mem_cons.mp hop with he | hop
  · subst he
    trivial
  rcases List.mem_cons.mp hop with he | hop
  · subst he
    show ∀ p ∈ [(("coffee" : String), (2 : ℤ))], 1 ≤ p.2
    decide
  · simp at hop

/-- C10: starting from a fresh registry, the assigned order numbers are
exactly `1, …, next − 1`, in order, with no gaps and no duplicates;
`open_order` on a valid free table appends exactly the current counter
value and increments the counter; on an invalid or occupied table it
changes nothing; adding items and closing change neither the counter nor
the key set; and reloading the saved file changes nothing. -/
theorem order_numbers_exact (c : Cafe) (hreach : Reachable c) :
    (c.orders.map Prod.fst = List.range' 1 (c.next_order_number - 1))
    ∧ (c.orders.map Prod.fst).Nodup
    ∧ (∀ n : ℕ, (lookupOrder c.orders n).isSome = true ↔
        1 ≤ n ∧ n < c.next_order_number)
    ∧ (∀ t now, validTable t = true → c.tables t = none →
        (openOrder c t now).orders.map Prod.fst =
          c.orders.map Prod.fst ++ [c.next_order_number]
        ∧ (openOrder c t now).next_order_number =
            c.next_order_number + 1)
    ∧ (∀ t now, validTable t = false → openOrder c t now = c)
    ∧ (∀ t now n, c.tables t = some n → openOrder c t now = c)
    ∧ (∀ t req,
        (addItemsToOrder c t req).orders.map Prod.fst =
          c.orders.map Prod.fst
        ∧ (addItemsToOrder c t req).next_order_number =
            c.next_order_number)
    ∧ (∀ t pack,
        (closeOrder c t pack).orders.map Prod.fst = c.orders.map Prod.fst
        ∧ (closeOrder c t pack).next_order_number = c.next_order_number)
    ∧ saveLoad c = c := by
  have hInv := reachable_inv hreach
  refine ⟨hInv.keys_seq, nodup_keys_of_inv hInv, ?_, ?_, ?_, ?_, ?_, ?_,
    saveLoad_eq_of_inv hInv⟩
  · intro n
    rw [lookupOrder_isSome_iff, hInv.keys_seq, List.mem_range'_1]
    have := hInv.next_pos
    omega
  · intro t now hv hfree
    rw [openOrder_free_eq c t now hv hfree]
    constructor
    · show (c.orders ++
        [(c.next_order_number,
          Order.mk t c.next_order_number [] true false now)]).map
          Prod.fst = _
      rw [List.map_append]
      rfl
    · rfl
  · intro t now hv
    exact openOrder_invalid_eq c t now hv
  · intro t now n htab
    exact openOrder_occupied_eq c t now n htab
  · intro t req
    exact ⟨(addItemsToOrder_fields c t req).1,
      (addItemsToOrder_fields c t req).2.1⟩
  · intro t pack
    exact closeOrder_fields c t pack

/-- C10 witness: three operations assign numbers 1 and 2 exactly. -/
theorem order_numbers_exact_witness :
    (runOps [Op.openOp 1 "a", Op.closeOp 1 false,
      Op.openOp 2 "b"]).orders.map Prod.fst =
      List.range' 1 ((runOps [Op.openOp 1 "a", Op.closeOp 1 false,
        Op.openOp 2 "b"]).next_order_number - 1) :=
  (order_numbers_exact
    (runOps [Op.openOp 1 "a", Op.closeOp 1 false, Op.openOp 2 "b"])
    ⟨[Op.openOp 1 "a", Op.closeOp 1 false, Op.openOp 2 "b"], rfl⟩).1
